import Mathlib

/-!
A verification development for the kernel stack watchdog: a hung-task
detector in which application threads mark watched regions of execution
(ScopedWatch push/pop on a per-thread LIFO list) and a background Monitor
periodically scans every registered thread's open entries, emitting a
StallReport for each entry open longer than its declared threshold.
The implementation of the watchdog engine itself is not part of the
corpus (only its test is), so the engine is modelled from the
specification, as faithfully as its words allow.  Durations and
timestamps are milliseconds of a monotonic clock, modelled as `Nat`.
-/

namespace StackWatchdog

/-- Modelled from the spec: `WatchEntry` — a value describing one open
watched region: code location (file + line, or caller-supplied
description), threshold duration, and monotonic opened-at timestamp.
Immutable once pushed. -/
structure WatchEntry where
  code_location : String
  threshold : Nat
  opened_at : Nat
  deriving DecidableEq, Repr

/-- Modelled from the spec: `PerThreadWatchList` — an ordered sequence of
`WatchEntry`, most-recently-opened last (top). -/
def PerThreadWatchList : Type := List WatchEntry

/-- Modelled from the spec: `push(entry)` appends the new entry as the
top (last position) of the owning thread's list. -/
def push (l : List WatchEntry) (e : WatchEntry) : List WatchEntry :=
  l ++ [e]

/-- Modelled from the spec: the handle returned by `open` — the index of
the pushed slot (the entry is identified by its position in the stack). -/
def pushHandle (l : List WatchEntry) : Nat :=
  l.length

/-- Modelled from the spec: the current top of a per-thread list (the
most-recently-opened entry, stored last). -/
def top (l : List WatchEntry) : Option WatchEntry :=
  l.getLast?

/-- Modelled from the spec: `pop` removes exactly the current top (the
last element). -/
def pop (l : List WatchEntry) : List WatchEntry :=
  l.dropLast

/-- Modelled from the spec: `close(handle)` pops the top entry; when the
handle does not correspond to the current top this is a nesting
violation: a fatal precondition failure (`none`) in debug builds and a
silent no-op leaving the list unchanged in release builds.  The `debug`
flag selects the build flavor. -/
def close (debug : Bool) (l : List WatchEntry) (handle : Nat) :
    Option (List WatchEntry) :=
  if handle + 1 = l.length then some l.dropLast
  else if debug then none
  else some l

/-- One operation performed by the owning thread on its watch list:
opening a scope (push) or closing the innermost open scope (pop). -/
inductive ScopeOp where
  | openScope : WatchEntry → ScopeOp
  | closeScope : ScopeOp
  deriving DecidableEq, Repr

/-- Applying a sequence of scope operations to a per-thread watch list,
via `push` and `pop`. -/
def applyOps : List ScopeOp → List WatchEntry → List WatchEntry
  | [], l => l
  | ScopeOp.openScope e :: ops, l => applyOps ops (push l e)
  | ScopeOp.closeScope :: ops, l => applyOps ops (pop l)

/-- The thread's lexical nesting of currently-open scopes, computed
directly as a stack with the innermost scope at the head: the reference
against which the watch list is compared. -/
def nestingStack : List ScopeOp → List WatchEntry → List WatchEntry
  | [], st => st
  | ScopeOp.openScope e :: ops, st => nestingStack ops (e :: st)
  | ScopeOp.closeScope :: ops, st => nestingStack ops st.tail

/-- Modelled from the spec: an entry is overdue at scan time `now` when
`now - opened_at > threshold`. -/
def overdue (now : Nat) (e : WatchEntry) : Bool :=
  decide (e.threshold < now - e.opened_at)

/-- Modelled from the spec: `StallReport` — the ephemeral diagnostic
record: thread identity, code location, elapsed duration, and optional
captured call-stack text (absent when capture fails). -/
structure StallReport where
  thread : Nat
  code_location : String
  elapsed : Nat
  stack : Option (List String)
  deriving DecidableEq, Repr

/-- Modelled from the spec: building the report for one overdue entry.
The stack-capture collaborator, `capture`, returns `none` on failure
(thread gone, capture unsupported), in which case the report still
carries location and elapsed data. -/
def mkReport (now : Nat) (capture : Nat → Option (List String))
    (tid : Nat) (e : WatchEntry) : StallReport :=
  ⟨tid, e.code_location, now - e.opened_at, capture tid⟩

/-- Modelled from the spec: the Monitor's scan of one thread's snapshot:
for each entry where `now - opened_at > threshold`, produce a
StallReport. -/
def scanThread (now : Nat) (capture : Nat → Option (List String))
    (tid : Nat) (l : List WatchEntry) : List StallReport :=
  (l.filter (overdue now)).map (mkReport now capture tid)

/-- Modelled from the spec: the scan over a registry view — the current
membership as pairs of thread identity and that thread's snapshot of
open entries. -/
def scan (now : Nat) (capture : Nat → Option (List String))
    (reg : List (Nat × List WatchEntry)) : List StallReport :=
  (reg.map (fun p => scanThread now capture p.1 p.2)).flatten

/-- The non-stack content of a report: thread identity, code location
and elapsed duration — what remains when call-stack capture fails. -/
def reportCore (r : StallReport) : Nat × String × Nat :=
  (r.thread, r.code_location, r.elapsed)

/-- All reports emitted over a run of scan cycles, each cycle given as
the scan time together with the snapshot the Monitor took then. -/
def runReports (capture : Nat → Option (List String)) (tid : Nat)
    (snaps : List (Nat × List WatchEntry)) : List StallReport :=
  (snaps.map (fun p => scanThread p.1 capture tid p.2)).flatten

/-- The per-thread list as seen at time `s` during a run of `n`
sequential open/close pairs: pair `i` is open during the window
`[i * step, i * step + d)` with threshold `T`, so at time `s` inside a
window exactly one entry is open, opened at the window's start; between
windows and after all `n` pairs the list is empty. -/
def seqPairsListAt (T step d n : Nat) (s : Nat) : List WatchEntry :=
  if s < n * step ∧ s % step < d then
    [⟨"stack_watchdog-test.cc:115", T, s - s % step⟩]
  else []

/-- Modelled from the spec: the Monitor's wall-clock position after `k`
sleep cycles, starting at `start`: the state machine
`Idle → sleep(check_interval) → Scan → Idle`, where the effective check
interval is re-read from configuration at the start of every sleep —
`config k` is the configured interval read when sleep `k` begins.  The
`k`-th scan therefore happens at `monitorRun config start (k + 1)`. -/
def monitorRun (config : Nat → Nat) (start : Nat) : Nat → Nat
  | 0 => start
  | k + 1 => monitorRun config start k + config k

/-- Modelled from the spec: one slot of a per-thread list as present in
shared memory: not yet used, half-written (the location stored but the
timing fields not yet — a torn entry a concurrent reader must never
see), or a fully written entry. -/
inductive Slot where
  | emptySlot : Slot
  | halfWritten : String → Slot
  | full : WatchEntry → Slot
  deriving DecidableEq

/-- Modelled from the spec: entries are published via an atomic top
index: slots strictly below `topIdx` are the published entries; the
owning thread prepares slot `topIdx` over possibly several separate
memory writes, and only then increments `topIdx`. -/
structure PubState where
  slots : Nat → Slot
  topIdx : Nat

/-- The initial state of a freshly registered per-thread list: nothing
written, nothing published. -/
def initPub : PubState :=
  ⟨fun _ => Slot.emptySlot, 0⟩

/-- Modelled from the spec: the owning thread's atomic memory steps.  A
push is the sequence writeLoc / completeWrite / publish (the entry is
visible only after the final top-index increment, which requires the
slot to be fully written); a pop is the single step retract. -/
inductive OwnerStep : PubState → PubState → Prop where
  | writeLoc (st : PubState) (loc : String) :
      OwnerStep st
        ⟨Function.update st.slots st.topIdx (Slot.halfWritten loc), st.topIdx⟩
  | completeWrite (st : PubState) (e : WatchEntry) :
      OwnerStep st
        ⟨Function.update st.slots st.topIdx (Slot.full e), st.topIdx⟩
  | publish (st : PubState) (e : WatchEntry)
      (h : st.slots st.topIdx = Slot.full e) :
      OwnerStep st ⟨st.slots, st.topIdx + 1⟩
  | retract (st : PubState) :
      OwnerStep st ⟨st.slots, st.topIdx - 1⟩

/-- States reachable by any interleaving of the owning thread's steps
(the Monitor's reads do not change the state, so it may read at any
point of any interleaving). -/
inductive ReachablePub : PubState → Prop where
  | init : ReachablePub initPub
  | step (st st' : PubState) :
      ReachablePub st → OwnerStep st st' → ReachablePub st'

/-- Modelled from the spec: the Monitor's view — it reads the top index
once (atomically) and then the slots below it. -/
def snapshotPub (st : PubState) : List Slot :=
  (List.range st.topIdx).map st.slots

/-- The publication invariant: every slot below the published top index
is fully written. -/
def PubInv (st : PubState) : Prop :=
  ∀ i, i < st.topIdx → ∃ e, st.slots i = Slot.full e

/-- A concrete state in which one entry has been fully written but not
yet published. -/
def pubDemo1 : PubState :=
  ⟨Function.update (fun _ => Slot.emptySlot) 0
      (Slot.full (WatchEntry.mk "loc" 20 0)), 0⟩

/-- `pubDemo1` after the owning thread's publishing increment. -/
def pubDemo2 : PubState :=
  ⟨Function.update (fun _ => Slot.emptySlot) 0
      (Slot.full (WatchEntry.mk "loc" 20 0)), 1⟩

/-- Modelled from the spec: the test-mode log sink — an in-memory
buffer to which rendered report text is appended. -/
structure LogState where
  buf : List String
  deriving DecidableEq, Repr

/-- Modelled from the spec: the sink appends rendered text to the
in-memory buffer. -/
def emitLog (st : LogState) (m : String) : LogState :=
  ⟨st.buf ++ [m]⟩

/-- Modelled from the spec: `TEST_LoggedMessages` / `savedLogs()` —
returns the ordered sequence of messages recorded so far, together with
the state the operation leaves behind. -/
def loggedMessagesQuery (st : LogState) : List String × LogState :=
  (st.buf, st)

/-- Modelled from the spec: the explicit reset operation clears
previously captured text. -/
def resetLogs (_st : LogState) : LogState :=
  ⟨[]⟩

/-- Appending a whole sequence of messages, one emit at a time. -/
def emitAll (st : LogState) (ms : List String) : LogState :=
  ms.foldl emitLog st

lemma pop_push (l : List WatchEntry) (e : WatchEntry) :
    pop (push l e) = l := by
  simp [pop, push]

lemma top_push (l : List WatchEntry) (e : WatchEntry) :
    top (push l e) = some e := by
  simp [top, push]

lemma pop_reverse (st : List WatchEntry) :
    pop st.reverse = st.tail.reverse := by
  cases st with
  | nil => rfl
  | cons a t => simp [pop, List.reverse_cons]

lemma applyOps_reverse (ops : List ScopeOp) (st : List WatchEntry) :
    applyOps ops st.reverse = (nestingStack ops st).reverse := by
  induction ops generalizing st with
  | nil => rfl
  | cons op ops ih =>
    cases op with
    | openScope e =>
      have h : push st.reverse e = (e :: st).reverse := by
        simp [push, List.reverse_cons]
      simp only [applyOps, nestingStack, h]
      exact ih (e :: st)
    | closeScope =>
      simp only [applyOps, nestingStack, pop_reverse]
      exact ih st.tail

lemma mem_scanThread_of_overdue (now : Nat)
    (capture : Nat → Option (List String)) (tid : Nat)
    (l : List WatchEntry) (e : WatchEntry)
    (hmem : e ∈ l) (hov : overdue now e = true) :
    mkReport now capture tid e ∈ scanThread now capture tid l := by
  unfold scanThread
  exact List.mem_map_of_mem _ (List.mem_filter.mpr ⟨hmem, hov⟩)

lemma scanThread_eq_nil (now : Nat) (capture : Nat → Option (List String))
    (tid : Nat) (l : List WatchEntry)
    (h : ∀ e ∈ l, overdue now e = false) :
    scanThread now capture tid l = [] := by
  unfold scanThread
  have : l.filter (overdue now) = [] := by
    rw [List.filter_eq_nil_iff]
    intro e he
    simp [h e he]
  rw [this, List.map_nil]

lemma runReports_eq_nil (capture : Nat → Option (List String)) (tid : Nat)
    (snaps : List (Nat × List WatchEntry))
    (h : ∀ p ∈ snaps, ∀ e ∈ p.2, overdue p.1 e = false) :
    runReports capture tid snaps = [] := by
  unfold runReports
  rw [List.flatten_eq_nil_iff]
  intro xs hxs
  rw [List.mem_map] at hxs
  obtain ⟨p, hp, rfl⟩ := hxs
  exact scanThread_eq_nil p.1 capture tid p.2 (h p hp)

lemma seqPairsListAt_not_overdue (T step d n s : Nat) (hd : d ≤ T) :
    ∀ e ∈ seqPairsListAt T step d n s, overdue s e = false := by
  intro e he
  unfold seqPairsListAt at he
  by_cases hc : s < n * step ∧ s % step < d
  · rw [if_pos hc, List.mem_singleton] at he
    subst he
    have hle : s % step ≤ s := Nat.mod_le s step
    simp only [overdue, decide_eq_false_iff_not, not_lt]
    omega
  · rw [if_neg hc] at he
    exact absurd he (List.not_mem_nil e)

lemma monitorRun_const (I start : Nat) :
    ∀ n, monitorRun (fun _ => I) start n = start + n * I := by
  intro n
  induction n with
  | zero => simp [monitorRun]
  | succ k ih =>
    show monitorRun (fun _ => I) start k + I = start + (k + 1) * I
    rw [ih]
    ring

lemma pubInv_init : PubInv initPub :=
  fun i hi => absurd hi (Nat.not_lt_zero i)

lemma pubInv_step (st st' : PubState) (hinv : PubInv st)
    (hstep : OwnerStep st st') : PubInv st' := by
  cases hstep with
  | writeLoc loc =>
    intro i hi
    have hne : i ≠ st.topIdx := Nat.ne_of_lt hi
    show ∃ e, Function.update st.slots st.topIdx (Slot.halfWritten loc) i = Slot.full e
    rw [Function.update_noteq hne]
    exact hinv i hi
  | completeWrite e =>
    intro i hi
    have hne : i ≠ st.topIdx := Nat.ne_of_lt hi
    show ∃ x, Function.update st.slots st.topIdx (Slot.full e) i = Slot.full x
    rw [Function.update_noteq hne]
    exact hinv i hi
  | publish e h =>
    intro i hi
    rcases Nat.lt_or_ge i st.topIdx with hlt | hge
    · exact hinv i hlt
    · have hit : i = st.topIdx := by
        have hi2 : i < st.topIdx + 1 := hi
        omega
      exact ⟨e, hit ▸ h⟩
  | retract =>
    intro i hi
    have hi2 : i < st.topIdx - 1 := hi
    exact hinv i (by omega)

lemma pubDemo2_reachable : ReachablePub pubDemo2 := by
  have h1 : ReachablePub pubDemo1 := by
    have hs := OwnerStep.completeWrite initPub (WatchEntry.mk "loc" 20 0)
    exact ReachablePub.step initPub pubDemo1 ReachablePub.init hs
  have hs2 := OwnerStep.publish pubDemo1 (WatchEntry.mk "loc" 20 0)
    (by simp [pubDemo1])
  exact ReachablePub.step pubDemo1 pubDemo2 h1 hs2

lemma emitAll_buf (ms : List String) (st : LogState) :
    (emitAll st ms).buf = st.buf ++ ms := by
  induction ms generalizing st with
  | nil => simp [emitAll]
  | cons m ms ih =>
    show (emitAll (emitLog st m) ms).buf = st.buf ++ m :: ms
    rw [ih (emitLog st m)]
    simp [emitLog]

/-- C1: a thread that opens a scope with threshold `T = e.threshold` at
time `t0` and holds it open for duration `D > T + I` (with check
interval `I > 0` and the Monitor started by `t0`) is caught: some scan
cycle `k`, bounded by `(t0 + T - start) / I`, happens strictly after the
entry becomes overdue and strictly before the scope closes, and that
cycle's scan emits a StallReport carrying the entry's code location. -/
theorem stall_reported_within_bounded_cycles
    (start t0 D I tid : Nat) (e : WatchEntry)
    (capture : Nat → Option (List String))
    (lstate : Nat → List WatchEntry)
    (hI : 0 < I) (hstart : start ≤ t0)
    (hD : e.threshold + I < D)
    (hopened : e.opened_at = t0)
    (hopen : ∀ s, t0 ≤ s → s < t0 + D → e ∈ lstate s) :
    ∃ k, k ≤ (t0 + e.threshold - start) / I ∧
      t0 + e.threshold < monitorRun (fun _ => I) start (k + 1) ∧
      monitorRun (fun _ => I) start (k + 1) < t0 + D ∧
      ∃ r ∈ scanThread (monitorRun (fun _ => I) start (k + 1)) capture tid
          (lstate (monitorRun (fun _ => I) start (k + 1))),
        r.code_location = e.code_location := by
  set T := e.threshold with hT
  set A := t0 + T - start with hA
  set k := A / I with hk
  have hdm : I * k + A % I = A := Nat.div_add_mod A I
  have hrI : A % I < I := Nat.mod_lt A hI
  have hs : monitorRun (fun _ => I) start (k + 1) = start + I * k + I := by
    rw [monitorRun_const]
    ring
  have h1 : t0 + T < monitorRun (fun _ => I) start (k + 1) := by
    rw [hs]
    omega
  have h2 : monitorRun (fun _ => I) start (k + 1) < t0 + D := by
    rw [hs]
    omega
  refine ⟨k, le_refl _, h1, h2, ?_⟩
  set s := monitorRun (fun _ => I) start (k + 1)
  have hmem : e ∈ lstate s := hopen s (by omega) h2
  have hov : overdue s e = true := by
    simp only [overdue, hopened, decide_eq_true_eq]
    omega
  exact ⟨mkReport s capture tid e,
    mem_scanThread_of_overdue s capture tid (lstate s) e hmem hov, rfl⟩

/-- Witness for C1: threshold 3, interval 2, Monitor started at the
scope's opening time 0, scope held open for 10. -/
theorem stall_reported_within_bounded_cycles_witness :
    ((0 : Nat) < 2 ∧ (0 : Nat) ≤ 0 ∧
     (WatchEntry.mk "loc" 3 0).threshold + 2 < 10 ∧
     (WatchEntry.mk "loc" 3 0).opened_at = 0 ∧
     (∀ s, 0 ≤ s → s < 0 + 10 →
        WatchEntry.mk "loc" 3 0 ∈ [WatchEntry.mk "loc" 3 0])) ∧
    (∃ k, k ≤ (0 + (WatchEntry.mk "loc" 3 0).threshold - 0) / 2 ∧
      0 + (WatchEntry.mk "loc" 3 0).threshold < monitorRun (fun _ => 2) 0 (k + 1) ∧
      monitorRun (fun _ => 2) 0 (k + 1) < 0 + 10 ∧
      ∃ r ∈ scanThread (monitorRun (fun _ => 2) 0 (k + 1)) (fun _ => none) 0
          ((fun _ => [WatchEntry.mk "loc" 3 0]) (monitorRun (fun _ => 2) 0 (k + 1))),
        r.code_location = (WatchEntry.mk "loc" 3 0).code_location) :=
  ⟨⟨by decide, by decide, by decide, by decide,
    fun s _ _ => List.mem_singleton.mpr rfl⟩,
   stall_reported_within_bounded_cycles 0 0 10 2 0 (WatchEntry.mk "loc" 3 0)
     (fun _ => none) (fun _ => [WatchEntry.mk "loc" 3 0])
     (by decide) (by decide) (by decide) (by decide)
     (fun s _ _ => List.mem_singleton.mpr rfl)⟩

/-- C2: two scopes nested on one thread at distinct code locations, the
outer pushed first and the inner pushed on top of it, both overdue at
scan time: the scan of that thread emits a report naming the outer
location and a report naming the inner location, so both appear in the
output. -/
theorem nested_scopes_both_reported
    (now tid : Nat) (capture : Nat → Option (List String))
    (outer inner : WatchEntry)
    (hov1 : overdue now outer = true) (hov2 : overdue now inner = true) :
    (∃ r ∈ scanThread now capture tid (push (push [] outer) inner),
        r.code_location = outer.code_location) ∧
    (∃ r ∈ scanThread now capture tid (push (push [] outer) inner),
        r.code_location = inner.code_location) := by
  have hl : push (push [] outer) inner = [outer, inner] := rfl
  refine ⟨⟨mkReport now capture tid outer, ?_, rfl⟩,
          ⟨mkReport now capture tid inner, ?_, rfl⟩⟩
  · exact mem_scanThread_of_overdue now capture tid _ outer (by simp [hl]) hov1
  · exact mem_scanThread_of_overdue now capture tid _ inner (by simp [hl]) hov2

/-- Witness for C2: two concrete nested entries, both overdue at a
concrete scan time. -/
theorem nested_scopes_both_reported_witness :
    (overdue 100 (WatchEntry.mk "test.cc:90" 20 0) = true ∧
     overdue 100 (WatchEntry.mk "test.cc:92" 20 1) = true) ∧
    ((∃ r ∈ scanThread 100 (fun _ => none) 7
          (push (push [] (WatchEntry.mk "test.cc:90" 20 0))
            (WatchEntry.mk "test.cc:92" 20 1)),
        r.code_location = (WatchEntry.mk "test.cc:90" 20 0).code_location) ∧
     (∃ r ∈ scanThread 100 (fun _ => none) 7
          (push (push [] (WatchEntry.mk "test.cc:90" 20 0))
            (WatchEntry.mk "test.cc:92" 20 1)),
        r.code_location = (WatchEntry.mk "test.cc:92" 20 1).code_location)) :=
  ⟨⟨by decide, by decide⟩,
   nested_scopes_both_reported 100 7 (fun _ => none)
     (WatchEntry.mk "test.cc:90" 20 0) (WatchEntry.mk "test.cc:92" 20 1)
     (by decide) (by decide)⟩

/-- C3: every `PerThreadWatchList` maintains strict LIFO discipline:
`push` makes the new entry the top, `pop` of a pushed list removes
exactly that entry, and for every sequence of operations by the owning
thread the list is exactly the thread's lexical nesting of
currently-open scopes (innermost scope at the top). -/
theorem watchlist_strict_lifo (ops : List ScopeOp) :
    (∀ (l : List WatchEntry) (e : WatchEntry),
        top (push l e) = some e ∧ pop (push l e) = l) ∧
    applyOps ops [] = (nestingStack ops []).reverse := by
  refine ⟨fun l e => ⟨top_push l e, pop_push l e⟩, ?_⟩
  have h := applyOps_reverse ops []
  simpa using h

/-- C4: a run in which no scan ever finds an overdue entry emits zero
StallReports; in particular, for the execution of 1,000,000 sequential
open/close pairs each closed within `d ≤ T` of opening, every list of
scan times yields zero reports. -/
theorem no_overdue_no_reports
    (capture : Nat → Option (List String)) (tid : Nat)
    (snaps : List (Nat × List WatchEntry))
    (T step d : Nat) (scanTimes : List Nat)
    (h : ∀ p ∈ snaps, ∀ e ∈ p.2, overdue p.1 e = false)
    (hd : d ≤ T) :
    runReports capture tid snaps = [] ∧
    runReports capture tid
      (scanTimes.map (fun s => (s, seqPairsListAt T step d 1000000 s))) = [] := by
  refine ⟨runReports_eq_nil capture tid snaps h, ?_⟩
  apply runReports_eq_nil
  intro p hp
  rw [List.mem_map] at hp
  obtain ⟨s, _, rfl⟩ := hp
  exact seqPairsListAt_not_overdue T step d 1000000 s hd

/-- Witness for C4: a concrete two-cycle run whose snapshots hold no
overdue entry, with concrete pair parameters `d ≤ T`. -/
theorem no_overdue_no_reports_witness :
    ((∀ p ∈ [((2 : Nat), [WatchEntry.mk "x" 3 0]), ((3 : Nat), ([] : List WatchEntry))],
        ∀ e ∈ p.2, overdue p.1 e = false) ∧ 2 ≤ 3) ∧
    (runReports (fun _ => none) 0
        [((2 : Nat), [WatchEntry.mk "x" 3 0]), ((3 : Nat), ([] : List WatchEntry))] = [] ∧
     runReports (fun _ => none) 0
        ([7, 12].map (fun s => (s, seqPairsListAt 3 5 2 1000000 s))) = []) :=
  ⟨⟨by decide, by decide⟩,
   no_overdue_no_reports (fun _ => none) 0
     [((2 : Nat), [WatchEntry.mk "x" 3 0]), ((3 : Nat), ([] : List WatchEntry))]
     3 5 2 [7, 12] (by decide) (by decide)⟩

/-- C5: closing with a handle that is not the current top is a fatal
precondition failure (`none`) in debug builds and a silent no-op in
release builds; in the release case the list is left unchanged — the
stack is never corrupted. -/
theorem close_nontop_fatal_debug_noop_release
    (l : List WatchEntry) (handle : Nat)
    (hnot : handle + 1 ≠ l.length) :
    close true l handle = none ∧ close false l handle = some l := by
  constructor <;> simp [close, hnot]

/-- Witness for C5 at a concrete list and a handle that is not the top. -/
theorem close_nontop_fatal_debug_noop_release_witness :
    (5 + 1 ≠ [WatchEntry.mk "loc" 10 0].length) ∧
    (close true [WatchEntry.mk "loc" 10 0] 5 = none ∧
     close false [WatchEntry.mk "loc" 10 0] 5 = some [WatchEntry.mk "loc" 10 0]) :=
  ⟨by decide,
   close_nontop_fatal_debug_noop_release [WatchEntry.mk "loc" 10 0] 5 (by decide)⟩

/-- C6: the check interval is re-read at the start of every sleep: the
duration of the Monitor's sleep `k` is exactly the configuration value
read at cycle `k`, and two configuration histories agreeing before a
runtime change at cycle `k` give identical wake times up to that point —
so the new value governs the very next sleep with no restart. -/
theorem check_interval_reread_each_sleep
    (config config' : Nat → Nat) (start k : Nat)
    (h : ∀ i, i < k → config i = config' i) :
    monitorRun config start (k + 1) = monitorRun config start k + config k ∧
    monitorRun config start k = monitorRun config' start k := by
  refine ⟨rfl, ?_⟩
  induction k with
  | zero => rfl
  | succ n ih =>
    show monitorRun config start n + config n
        = monitorRun config' start n + config' n
    rw [ih (fun i hi => h i (Nat.lt_succ_of_lt hi)), h n (Nat.lt_succ_self n)]

/-- Witness for C6: the interval is changed from 10 to 500 at cycle 3;
cycle 3's sleep already uses the new value. -/
theorem check_interval_reread_each_sleep_witness :
    (∀ i, i < 3 → (fun _ => (10 : Nat)) i = (fun j => if j < 3 then (10 : Nat) else 500) i) ∧
    (monitorRun (fun _ => (10 : Nat)) 0 (3 + 1)
        = monitorRun (fun _ => (10 : Nat)) 0 3 + (fun _ => (10 : Nat)) 3 ∧
     monitorRun (fun _ => (10 : Nat)) 0 3
        = monitorRun (fun j => if j < 3 then (10 : Nat) else 500) 0 3) :=
  ⟨fun _ hi => (if_pos hi).symm,
   check_interval_reread_each_sleep (fun _ => 10)
     (fun j => if j < 3 then 10 else 500) 0 3 (fun _ hi => (if_pos hi).symm)⟩

/-- C7: no deduplication or suppression: at every cycle of a run at
which a watch entry is present in the snapshot and overdue, the scan of
that cycle emits a (fresh) report for that entry, carrying its location
and its elapsed time at that cycle — not only on the first overdue
cycle. -/
theorem overdue_reported_every_cycle
    (capture : Nat → Option (List String)) (tid : Nat)
    (snaps : List (Nat × List WatchEntry)) (c : Nat × List WatchEntry)
    (e : WatchEntry) (hc : c ∈ snaps) (hmem : e ∈ c.2)
    (hov : overdue c.1 e = true) :
    ∃ r ∈ scanThread c.1 capture tid c.2,
      r.code_location = e.code_location ∧
      r.elapsed = c.1 - e.opened_at ∧
      r ∈ runReports capture tid snaps := by
  refine ⟨mkReport c.1 capture tid e,
    mem_scanThread_of_overdue c.1 capture tid c.2 e hmem hov, rfl, rfl, ?_⟩
  unfold runReports
  rw [List.mem_flatten]
  exact ⟨scanThread c.1 capture tid c.2, List.mem_map_of_mem _ hc,
    mem_scanThread_of_overdue c.1 capture tid c.2 e hmem hov⟩

/-- Witness for C7: a run of two cycles in which one concrete entry is
open and overdue at the second cycle. -/
theorem overdue_reported_every_cycle_witness :
    ((50, [WatchEntry.mk "loc" 20 0]) ∈
        [(30, [WatchEntry.mk "loc" 20 0]), (50, [WatchEntry.mk "loc" 20 0])] ∧
     WatchEntry.mk "loc" 20 0 ∈ ((50 : Nat), [WatchEntry.mk "loc" 20 0]).2 ∧
     overdue ((50 : Nat), [WatchEntry.mk "loc" 20 0]).1 (WatchEntry.mk "loc" 20 0) = true) ∧
    (∃ r ∈ scanThread ((50 : Nat), [WatchEntry.mk "loc" 20 0]).1 (fun _ => none) 3
        ((50 : Nat), [WatchEntry.mk "loc" 20 0]).2,
      r.code_location = (WatchEntry.mk "loc" 20 0).code_location ∧
      r.elapsed = ((50 : Nat), [WatchEntry.mk "loc" 20 0]).1 - (WatchEntry.mk "loc" 20 0).opened_at ∧
      r ∈ runReports (fun _ => none) 3
        [(30, [WatchEntry.mk "loc" 20 0]), (50, [WatchEntry.mk "loc" 20 0])]) :=
  ⟨⟨by decide, by decide, by decide⟩,
   overdue_reported_every_cycle (fun _ => none) 3
     [(30, [WatchEntry.mk "loc" 20 0]), (50, [WatchEntry.mk "loc" 20 0])]
     (50, [WatchEntry.mk "loc" 20 0]) (WatchEntry.mk "loc" 20 0)
     (by decide) (by decide) (by decide)⟩

/-- C8: a call-stack capture failure for an entry never aborts a scan:
the scan is a total function whose non-stack content (thread, location,
elapsed) is identical under every capture outcome — in particular under
a capture that fails for one, or every, thread — so each overdue entry
still yields its report with location and elapsed data, every remaining
entry and thread is still scanned, and no error reaches the monitored
application's control flow. -/
theorem capture_failure_absorbed
    (now tid : Nat) (l : List WatchEntry)
    (reg : List (Nat × List WatchEntry))
    (capture capture' : Nat → Option (List String)) :
    (scanThread now capture tid l).map reportCore
      = (scanThread now capture' tid l).map reportCore ∧
    (scan now capture reg).map reportCore
      = (scan now capture' reg).map reportCore := by
  have hthread : ∀ (c c' : Nat → Option (List String)) (t : Nat)
      (xs : List WatchEntry),
      (scanThread now c t xs).map reportCore
        = (scanThread now c' t xs).map reportCore := by
    intro c c' t xs
    unfold scanThread
    simp only [List.map_map]
    apply List.map_congr_left
    intro a _
    rfl
  refine ⟨hthread capture capture' tid l, ?_⟩
  unfold scan
  rw [List.map_flatten, List.map_flatten, List.map_map, List.map_map]
  congr 1
  apply List.map_congr_left
  intro p _
  exact hthread capture capture' p.1 p.2

/-- C9: under every interleaving of the owning thread's push/pop memory
steps, a Monitor snapshot (atomic read of the top index, then the slots
below it) contains only fully written entries: it sees each WatchEntry
either fully or not at all, never a torn or half-written entry. -/
theorem monitor_view_never_torn (st : PubState) (h : ReachablePub st) :
    ∀ x ∈ snapshotPub st, ∃ e, x = Slot.full e := by
  have hinv : PubInv st := by
    induction h with
    | init => exact pubInv_init
    | step st st' _ hstep ih => exact pubInv_step st st' ih hstep
  intro x hx
  unfold snapshotPub at hx
  rw [List.mem_map] at hx
  obtain ⟨i, hi, rfl⟩ := hx
  rw [List.mem_range] at hi
  exact hinv i hi

/-- Witness for C9: the snapshot of a concrete reachable state with one
published entry contains no torn slot. -/
theorem monitor_view_never_torn_witness :
    ReachablePub pubDemo2 ∧
    ∀ x ∈ snapshotPub pubDemo2, ∃ e, x = Slot.full e :=
  ⟨pubDemo2_reachable, monitor_view_never_torn pubDemo2 pubDemo2_reachable⟩

/-- C10: querying the captured log is non-destructive: it returns the
messages recorded so far and leaves the buffer unchanged, so between two
resets the returned sequences are append-only — after any further emits
the earlier query's result is a prefix of the later query's result —
and only the explicit reset operation empties the buffer. -/
theorem logged_messages_query_nondestructive (st : LogState) (ms : List String) :
    (loggedMessagesQuery st).2 = st ∧
    (loggedMessagesQuery (emitAll st ms)).1 = (loggedMessagesQuery st).1 ++ ms ∧
    (loggedMessagesQuery (resetLogs st)).1 = [] := by
  exact ⟨rfl, emitAll_buf ms st, rfl⟩

end StackWatchdog
